import Mathlib

/- Shallow embedding of the OSRS wiki ingestion pipeline sources
   (wikiscraper.py, article_cleanup.py, chunk_articles.py), together with
   theorems about the specified behaviour of the Markup Normalizer, the
   Content Source Client, the Segmenter front end and the Ingestion
   Coordinator's resume / commit logic. -/

namespace OsrsRag

/-- Python str.strip() whitespace set (ASCII part), as used by `.strip()`
calls throughout the sources. -/
def pyIsSpace (c : Char) : Bool :=
  c = ' ' || c = '\t' || c = '\n' || c = '\r' || c = Char.ofNat 11 || c = Char.ofNat 12

/-- The open-brace character of a template marker. -/
def lbrace : Char := Char.ofNat 123

/-- The close-brace character of a template marker. -/
def rbrace : Char := Char.ofNat 125

/-- Python str.strip(): drop leading and trailing whitespace characters. -/
def pyStrip (cs : List Char) : List Char :=
  ((cs.dropWhile pyIsSpace).reverse.dropWhile pyIsSpace).reverse

/-- String wrapper for pyStrip. -/
def pyStripS (s : String) : String := ⟨pyStrip s.data⟩

/-! ## remove_nested_templates (article_cleanup.py, lines 71-98) -/

/-- Inner scan of remove_nested_templates (the `while j < len(text)-1 and
brace_count > 0` loop): advance while at least two characters remain and the
depth counter is positive, jumping two characters over an open or close pair
and one character otherwise.  Returns the remaining suffix and the final
depth counter. -/
def rntInner : List Char → Nat → List Char × Nat
  | c1 :: c2 :: rest, bc =>
    if bc = 0 then (c1 :: c2 :: rest, bc)
    else if c1 = lbrace ∧ c2 = lbrace then rntInner rest (bc + 1)
    else if c1 = rbrace ∧ c2 = rbrace then rntInner rest (bc - 1)
    else rntInner (c2 :: rest) bc
  | short, bc => (short, bc)

/-- Outer loop of remove_nested_templates (the `while i < len(text)` loop),
with explicit fuel; every iteration consumes at least one character, so fuel
equal to the length of the input suffices.  On an open pair `{{` the inner
scan runs with depth 1; if it closes (depth 0) scanning resumes after the
matched region, otherwise scanning resumes one character later (`i = i + 1`)
without emitting the skipped brace.  All other characters are copied. -/
def rntAux : Nat → List Char → List Char
  | 0, cs => cs
  | _ + 1, [] => []
  | _ + 1, [c] => [c]
  | fuel + 1, c1 :: c2 :: rest =>
    if c1 = lbrace ∧ c2 = lbrace then
      match rntInner rest 1 with
      | (rem, 0) => rntAux fuel rem
      | (_, _ + 1) => rntAux fuel (c2 :: rest)
    else c1 :: rntAux fuel (c2 :: rest)

/-- remove_nested_templates from article_cleanup.py. -/
def remove_nested_templates (s : String) : String := ⟨rntAux s.data.length s.data⟩

/-! ## A small backtracking matcher for the regular expressions of
article_cleanup.py.  Every quantified subpattern appearing in those
expressions is a single-character class, which the token form below
captures; matching follows Python's leftmost, priority-ordered
backtracking. -/

/-- One regex token: a literal, an ordered alternation of literals, a single
character class, a starred or plus-quantified class (greedy or lazy, a plus
optionally capturing), or the `$` anchor (multiline or plain). -/
inductive RTok where
  | lit (cs : List Char)
  | alt (ls : List (List Char))
  | one (p : Char → Bool)
  | star (p : Char → Bool) (lzy : Bool)
  | plus (p : Char → Bool) (lzy : Bool) (cap : Bool)
  | dollar (multiline : Bool)

/-- Length of the maximal prefix satisfying p. -/
def countWhile (p : Char → Bool) : List Char → Nat
  | [] => 0
  | c :: cs => if p c then countWhile p cs + 1 else 0

/-- Try the continuation after dropping each candidate count in order;
return the first success.  Implements backtracking through a star. -/
def tryRem (f : List Char → Option (List Char × List (List Char)))
    (s : List Char) : List Nat → Option (List Char × List (List Char))
  | [] => none
  | n :: rest =>
    match f (s.drop n) with
    | some r => some r
    | none => tryRem f s rest

/-- Like tryRem but for a plus token, optionally recording the consumed
prefix as a capture group. -/
def tryRemCap (f : List Char → Option (List Char × List (List Char)))
    (s : List Char) (cap : Bool) : List Nat → Option (List Char × List (List Char))
  | [] => none
  | n :: rest =>
    match f (s.drop n) with
    | some (rem, caps) => some (rem, if cap then s.take n :: caps else caps)
    | none => tryRemCap f s cap rest

/-- Ordered alternation of literal branches, backtracking into the
continuation. -/
def tryAlt (f : List Char → Option (List Char × List (List Char)))
    (s : List Char) : List (List Char) → Option (List Char × List (List Char))
  | [] => none
  | l :: ls =>
    if l.isPrefixOf s then
      match f (s.drop l.length) with
      | some r => some r
      | none => tryAlt f s ls
    else tryAlt f s ls

/-- Match a token list against a prefix of s, returning the remaining suffix
and the capture groups in order.  Fuel is one unit per token. -/
def rmatchF : Nat → List RTok → List Char → Option (List Char × List (List Char))
  | 0, _, _ => none
  | _ + 1, [], s => some (s, [])
  | fuel + 1, t :: ts, s =>
    match t with
    | .lit cs => if cs.isPrefixOf s then rmatchF fuel ts (s.drop cs.length) else none
    | .alt ls => tryAlt (rmatchF fuel ts) s ls
    | .one p =>
      match s with
      | [] => none
      | c :: rest => if p c then rmatchF fuel ts rest else none
    | .star p lzy =>
      let m := countWhile p s
      let ns := if lzy then List.range (m + 1) else (List.range (m + 1)).reverse
      tryRem (rmatchF fuel ts) s ns
    | .plus p lzy cap =>
      let m := countWhile p s
      let ns0 := (List.range m).map (· + 1)
      let ns := if lzy then ns0 else ns0.reverse
      tryRemCap (rmatchF fuel ts) s cap ns
    | .dollar ml =>
      if s.isEmpty || (ml && s.head? == some '\n') then rmatchF fuel ts s else none

/-- A pattern: whether it is anchored at line starts (leading ^ under
re.MULTILINE) plus its token list. -/
structure RePat where
  anchored : Bool
  toks : List RTok

/-- Run a pattern at the current position. -/
def runPat (p : RePat) (s : List Char) : Option (List Char × List (List Char)) :=
  rmatchF (p.toks.length + 1) p.toks s

/-- A piece of a replacement template: literal text or a capture reference. -/
inductive TmplPiece where
  | str (cs : List Char)
  | ref (i : Nat)

/-- Render a replacement template against the captures of a match. -/
def renderTmpl : List TmplPiece → List (List Char) → List Char
  | [], _ => []
  | .str cs :: rest, caps => cs ++ renderTmpl rest caps
  | .ref i :: rest, caps => caps.getD i [] ++ renderTmpl rest caps

/-- re.sub scanning loop: at each position (line starts only, for anchored
patterns) try the pattern; on a match emit the rendered replacement and
continue after the consumed region, otherwise emit one character and move
on.  A zero-width match is treated as no match (none of the patterns used
here can match the empty string).  Fuel of one unit per input character
suffices since every step consumes at least one character. -/
def pySubAux (p : RePat) (tmpl : List TmplPiece) : Nat → Bool → List Char → List Char
  | 0, _, s => s
  | fuel + 1, atLS, s =>
    match s with
    | [] => []
    | c :: rest =>
      match (if !p.anchored || atLS then runPat p s else none) with
      | some (rem, caps) =>
        let k := s.length - rem.length
        if k = 0 then c :: pySubAux p tmpl fuel (c == '\n') rest
        else renderTmpl tmpl caps ++ pySubAux p tmpl fuel ((s.take k).getLast? == some '\n') rem
      | none => c :: pySubAux p tmpl fuel (c == '\n') rest

/-- re.sub of a pattern with a replacement template over a character list. -/
def pySub (p : RePat) (tmpl : List TmplPiece) (s : List Char) : List Char :=
  pySubAux p tmpl s.length true s

/-! ## The individual regex passes of clean_with_regex, in source order. -/

/-- HTML tags: `<[^>]+>` (article_cleanup.py line 17). -/
def tagPat : RePat := ⟨false, [.lit ['<'], .plus (fun c => c != '>') false false, .lit ['>']]⟩

/-- File/Image/Category links (line 20). -/
def fileLinkPat : RePat :=
  ⟨false, [.lit ['[', '['], .alt ["File:".data, "Image:".data, "Category:".data],
    .plus (fun c => c != ']') false false, .lit [']', ']']]⟩

/-- Piped wikilink `[[target|label]]` → label (line 21). -/
def pipeLinkPat : RePat :=
  ⟨false, [.lit ['[', '['], .plus (fun c => c != ']' && c != '|') false true,
    .lit ['|'], .plus (fun c => c != ']') false true, .lit [']', ']']]⟩

/-- Plain wikilink `[[target]]` → target (line 22). -/
def linkPat : RePat :=
  ⟨false, [.lit ['[', '['], .plus (fun c => c != ']') false true, .lit [']', ']']]⟩

/-- External link `[...]` removed (line 23). -/
def extLinkPat : RePat :=
  ⟨false, [.lit ['['], .plus (fun c => c != ']') false false, .lit [']']]⟩

/-- Bold markup (lines 26 and 37). -/
def boldPat : RePat :=
  ⟨false, [.lit ['\'', '\'', '\''], .plus (fun c => c != '\'') false true,
    .lit ['\'', '\'', '\'']]⟩

/-- Italic markup (lines 27 and 38). -/
def italicPat : RePat :=
  ⟨false, [.lit ['\'', '\''], .plus (fun c => c != '\'') false true, .lit ['\'', '\'']]⟩

/-- First header pass `^=+\s*(.+?)\s*=+$` → `## \1`, MULTILINE (line 28). -/
def header1Pat : RePat :=
  ⟨true, [.plus (fun c => c == '=') false false, .star pyIsSpace false,
    .plus (fun c => c != '\n') true true, .star pyIsSpace false,
    .plus (fun c => c == '=') false false, .dollar true]⟩

/-- Second header pass `^=+\s*(.+?)\s*=+\s*$` → `\1`, MULTILINE (line 41). -/
def header2Pat : RePat :=
  ⟨true, [.plus (fun c => c == '=') false false, .star pyIsSpace false,
    .plus (fun c => c != '\n') true true, .star pyIsSpace false,
    .plus (fun c => c == '=') false false, .star pyIsSpace false, .dollar true]⟩

/-- Block tables `^\s*\{\|.*?\|\}\s*$`, MULTILINE and DOTALL (lines 31 and 44). -/
def tablePat : RePat :=
  ⟨true, [.star pyIsSpace false, .lit [lbrace, '|'], .star (fun _ => true) true,
    .lit ['|', rbrace], .star pyIsSpace false, .dollar true]⟩

/-- Table rows and cells `^\s*[|!].*$`, MULTILINE (lines 32 and 45). -/
def rowPat : RePat :=
  ⟨true, [.star pyIsSpace false, .one (fun c => c == '|' || c == '!'),
    .star (fun c => c != '\n') false, .dollar true]⟩

/-- Residual table row marker `^\s*\|-.*$`, MULTILINE (line 46). -/
def rowDashPat : RePat :=
  ⟨true, [.star pyIsSpace false, .lit ['|', '-'],
    .star (fun c => c != '\n') false, .dollar true]⟩

/-- HTML comments `<!--.*?-->`, DOTALL (line 35). -/
def commentPat : RePat :=
  ⟨false, [.lit "<!--".data, .star (fun _ => true) true, .lit "-->".data]⟩

/-- Non-breaking space entity `&nbsp;` → one space (line 49). -/
def nbspPat : RePat := ⟨false, [.lit "&nbsp;".data]⟩

/-- Other HTML entities `&[a-zA-Z0-9#]+;` removed (line 50). -/
def entityPat : RePat :=
  ⟨false, [.lit ['&'], .plus (fun c => c.isAlpha || c.isDigit || c = '#') false false,
    .lit [';']]⟩

/-! ## The final whitespace section of clean_with_regex (lines 52-68). -/

/-- Split a character list into lines at newline characters. -/
def splitNl : List Char → List (List Char)
  | [] => [[]]
  | c :: rest =>
    match splitNl rest with
    | [] => [[c]]
    | l :: ls => if c = '\n' then [] :: l :: ls else (c :: l) :: ls

/-- Join lines with newline characters. -/
def intercalateNl : List (List Char) → List Char
  | [] => []
  | [l] => l
  | l :: ls => l ++ '\n' :: intercalateNl ls

/-- The markup class of the line filter `[{}|!=]`. -/
def markupClass (c : Char) : Bool :=
  c = lbrace || c = rbrace || c = '|' || c = '!' || c = '='

/-- The test `re.match(r'^\s*[{}|!=]+\s*$', line)` (line 58): the line is
optional whitespace, then one or more markup characters, then optional
whitespace. -/
def isMarkupOnly (l : List Char) : Bool :=
  let a := l.dropWhile pyIsSpace
  let b := a.takeWhile markupClass
  !b.isEmpty && ((a.drop b.length).dropWhile pyIsSpace).isEmpty

/-- The line filter loop of lines 56-61.  The accumulator is kept reversed,
so `cleaned_lines[-1]` is its head; the Python test
`not cleaned_lines or cleaned_lines[-1]` is exactly `acc.head? ≠ some []`. -/
def filterLinesAux (acc : List (List Char)) : List (List Char) → List (List Char)
  | [] => acc.reverse
  | l :: ls =>
    let s := pyStrip l
    if s ≠ [] ∧ isMarkupOnly s = false then filterLinesAux (s :: acc) ls
    else if acc.head? ≠ some ([] : List Char) then filterLinesAux ([] :: acc) ls
    else filterLinesAux acc ls

/-- Strip each line, keep non-markup non-empty lines, and replace runs of
dropped lines by a single empty line (lines 53-61). -/
def filterLines (ls : List (List Char)) : List (List Char) := filterLinesAux [] ls

/-- The blank-line collapse `re.sub(r'\n\s*\n\s*\n+', '\n\n', text)`
(line 65).  A match starts at a newline whose maximal whitespace run
contains at least three newlines; the match extends through the last
newline of that run and is replaced by two newlines. -/
def bcAux : Nat → List Char → List Char
  | 0, cs => cs
  | _ + 1, [] => []
  | fuel + 1, c :: rest =>
    if c = '\n' then
      let wsr := rest.takeWhile pyIsSpace
      if 3 ≤ (c :: wsr).countP (fun x => x == '\n') then
        '\n' :: '\n' ::
          bcAux fuel (((c :: wsr).reverse.takeWhile (fun x => x != '\n')).reverse
            ++ rest.drop wsr.length)
      else c :: bcAux fuel rest
    else c :: bcAux fuel rest

/-- Blank-line collapse with fuel equal to the input length. -/
def blankCollapse (cs : List Char) : List Char := bcAux cs.length cs

/-- Horizontal whitespace for the `[ \t]+` pass. -/
def isHspace (c : Char) : Bool := c = ' ' || c = '\t'

/-- The horizontal-whitespace collapse `re.sub(r'[ \t]+', ' ', text)`
(line 66), written as a single pass that emits one space for each maximal
run of spaces and tabs. -/
def hcAux : Bool → List Char → List Char
  | _, [] => []
  | afterH, c :: rest =>
    if isHspace c then
      if afterH then hcAux true rest else ' ' :: hcAux true rest
    else c :: hcAux false rest

/-- The whole final whitespace section: line filtering and joining, then the
blank-line collapse, the horizontal-whitespace collapse, and the final
strip (lines 52-68). -/
def finalWhitespace (cs : List Char) : List Char :=
  let j := intercalateNl (filterLines (splitNl cs))
  pyStrip (hcAux false (blankCollapse j))

/-! ## clean_with_regex (article_cleanup.py, lines 9-68), passes in source
order. -/

/-- All passes of clean_with_regex before the final whitespace section
(article_cleanup.py lines 14-50): template removal and the regex passes in
their source order, including the repeated bold/italic, header, and table
passes. -/
def preWhitespace (s : String) : List Char :=
  let t0 := rntAux s.data.length s.data
  let t1 := pySub tagPat [] t0
  let t2 := pySub fileLinkPat [] t1
  let t3 := pySub pipeLinkPat [.ref 1] t2
  let t4 := pySub linkPat [.ref 0] t3
  let t5 := pySub extLinkPat [] t4
  let t6 := pySub boldPat [.ref 0] t5
  let t7 := pySub italicPat [.ref 0] t6
  let t8 := pySub header1Pat [.str "## ".data, .ref 0] t7
  let t9 := pySub tablePat [] t8
  let t10 := pySub rowPat [] t9
  let t11 := pySub commentPat [] t10
  let t12 := pySub boldPat [.ref 0] t11
  let t13 := pySub italicPat [.ref 0] t12
  let t14 := pySub header2Pat [.ref 0] t13
  let t15 := pySub tablePat [] t14
  let t16 := pySub rowPat [] t15
  let t17 := pySub rowDashPat [] t16
  let t18 := pySub nbspPat [.str [' ']] t17
  pySub entityPat [] t18

/-- clean_with_regex from article_cleanup.py: template removal, the regex
passes in their source order, and the final whitespace section. -/
def clean_with_regex (s : String) : String :=
  ⟨finalWhitespace (preWhitespace s)⟩

/-! ## wikiscraper.py: get_safe_filename and the skip-existing check of
main (lines 24-26 and 157-164). -/

/-- The characters replaced by an underscore in get_safe_filename. -/
def replacedChars : List Char := ['<', '>', ':', '"', '/', '\\', '|', '?', '*']

/-- get_safe_filename from wikiscraper.py: replace each unsafe character by
an underscore, strip, and append the json extension. -/
def get_safe_filename (title : String) : String :=
  pyStripS ⟨title.data.map (fun c => if c ∈ replacedChars then '_' else c)⟩ ++ ".json"

/-- The skip-existing loop of main (wikiscraper.py lines 160-164): a title is
fetched only when its safe filename is not among the existing files. -/
def pages_to_fetch (allWikiPages : List String) (existingFiles : List String) : List String :=
  allWikiPages.filter (fun title => !existingFiles.contains (get_safe_filename title))

/-! ## wikiscraper.py: get_wikitexts_batch_with_retry (lines 34-101). -/

/-- MAX_RETRIES from wikiscraper.py line 14. -/
def MAX_RETRIES : Nat := 5

/-- BASE_WAIT from wikiscraper.py line 15. -/
def BASE_WAIT : Nat := 2

/-- One attempt's observable response, covering the decision points of the
retry loop: a non-200 HTTP status, an unparsable body, a MediaWiki error
payload (with the value of the Retry-After header, when the server sent
one), a parsed success payload, or a requests exception. -/
inductive FetchResp where
  | httpError (status : Nat)
  | invalidJson
  | apiError (code : String) (retryAfter : Option Nat)
  | ok (results : List (String × String))
  | reqException

/-- The error codes the retry loop treats as transient (line 72). -/
def retryableCodes : List String := ["maxlag", "ratelimited", "readonly"]

/-- Observable outcome of get_wikitexts_batch_with_retry: the returned
mapping, the number of attempts started, the sleep durations performed in
order, and whether the normal success path was reached. -/
structure FetchOutcome where
  results : List (String × String)
  attempts : Nat
  waits : List Nat
  success : Bool
  deriving DecidableEq, Repr

/-- The `for attempt in range(MAX_RETRIES)` loop of
get_wikitexts_batch_with_retry, with the response of each attempt supplied
by the environment `resp`.  `n` counts the remaining iterations, `att` the
attempts already started, and `ws` the sleeps so far (reversed).  Waits
follow the source: `BASE_WAIT * (attempt + 1)` after an HTTP error or a
requests exception, `BASE_WAIT` after invalid JSON, and for a retryable API
error the Retry-After header when present, else `BASE_WAIT * (attempt + 1)`.
A fatal API error returns the empty mapping at once; exhausting the loop
also returns the empty mapping. -/
def fetchGo (resp : Nat → FetchResp) : Nat → Nat → List Nat → FetchOutcome
  | 0, att, ws => ⟨[], att, ws.reverse, false⟩
  | n + 1, att, ws =>
    match resp att with
    | .httpError _ => fetchGo resp n (att + 1) (BASE_WAIT * (att + 1) :: ws)
    | .invalidJson => fetchGo resp n (att + 1) (BASE_WAIT :: ws)
    | .apiError code retryAfter =>
      if retryableCodes.contains code then
        fetchGo resp n (att + 1) (retryAfter.getD (BASE_WAIT * (att + 1)) :: ws)
      else ⟨[], att + 1, ws.reverse, false⟩
    | .ok rs => ⟨rs, att + 1, ws.reverse, true⟩
    | .reqException => fetchGo resp n (att + 1) (BASE_WAIT * (att + 1) :: ws)

/-- get_wikitexts_batch_with_retry over an environment of per-attempt
responses. -/
def get_wikitexts_batch_with_retry (resp : Nat → FetchResp) : FetchOutcome :=
  fetchGo resp MAX_RETRIES 0 []

/-- Modelled from the spec: an "exponential backoff computed from the base
delay and the attempt number" (spec sections 4.1 and the C4 claim), for
comparison with the wait the code actually computes. -/
def expBackoffSpec (base attempt : Nat) : Nat := base * 2 ^ attempt

/-! ## chunk_articles.py: resume slicing (lines 141-154). -/

/-- The resume logic of chunk_articles.py lines 141-152: with resume mode
on, start_index is the checkpoint's processed_count; when start_index is
positive and smaller than the number of discovered articles the list is
sliced at start_index, but when start_index is at least that number the
code only prints "Nothing to do." and leaves the list unsliced. -/
def remainingArticles (articles : List String) (processedCount : Nat) (resume : Bool) :
    List String :=
  let startIndex := if resume then processedCount else 0
  if startIndex > 0 then
    if startIndex ≥ articles.length then articles
    else articles.drop startIndex
  else articles

/-! ## chunk_articles.py: per-batch commit with index-write retry
(lines 204-241). -/

/-- Observable outcome of handling one completed batch in the as_completed
loop. -/
structure BatchOutcome where
  indexed : Bool
  raisedToOuter : Bool
  failedRecorded : List String
  deriving DecidableEq, Repr

/-- The add_documents retry loop (lines 209-218): attempts are numbered
`1 .. RETRY_ADD_DOCS + 1`; the loop succeeds if any attempt's write
succeeds, and raises after the last failure. -/
def addDocsSucceeds (addOk : Nat → Bool) (retryAddDocs : Nat) : Bool :=
  ((List.range (retryAddDocs + 1)).map (· + 1)).any addOk

/-- Handling of one batch in the as_completed loop (lines 204-241): when the
batch has documents, the add_documents retry loop runs; if it raises, the
exception escapes to the outer handler (line 233), which only logs — the
per-article failures in batch_failed are then never appended to
failed_articles, and no article of the batch is recorded.  Only on the
non-raising path is batch_failed appended. -/
def handleBatch (docsNonempty : Bool) (batchFailed : List String)
    (addOk : Nat → Bool) (retryAddDocs : Nat) : BatchOutcome :=
  if docsNonempty then
    if addDocsSucceeds addOk retryAddDocs then
      { indexed := true, raisedToOuter := false, failedRecorded := batchFailed }
    else
      { indexed := false, raisedToOuter := true, failedRecorded := [] }
  else { indexed := false, raisedToOuter := false, failedRecorded := batchFailed }

/-! ## chunk_articles.py: process_articles per-article extraction
(lines 106-134) and the segmentation front end. -/

/-- CHUNK_SIZE default (chunk_articles.py line 59). -/
def CHUNK_SIZE : Nat := 1000

/-- CHUNK_OVERLAP default (chunk_articles.py line 60). -/
def CHUNK_OVERLAP : Nat := 150

/-- A discovered article entry as built by process_articles. -/
structure ArticleEntry where
  title : String
  raw_text : String
  source : String
  deriving DecidableEq, Repr

/-- The source locator of process_articles line 117. -/
def articleSource (title : String) : String :=
  "https://oldschool.runescape.wiki/w/" ++ ((title.replace " " "_").replace "/" "_")

/-- The per-article body of process_articles (chunk_articles.py
lines 114-131): parts always start with "Title: " followed by the title;
the stripped content is appended only when non-empty; the entry is kept
only when the joined text is non-blank. -/
def process_article_entry (title content : String) : Option ArticleEntry :=
  let parts :=
    if pyStripS content ≠ "" then ["Title: " ++ title, pyStripS content]
    else ["Title: " ++ title]
  let rawText := String.intercalate "\n\n" parts
  if pyStripS rawText ≠ "" then
    some { title := title, raw_text := rawText, source := articleSource title }
  else none

/-- Modelled from the spec: the Segmenter's splitting itself is delegated to
the external RecursiveCharacterTextSplitter collaborator, which is not part
of this repository; per spec section 4.3 it produces a finite ordered
sequence of chunks of at most the configured maximum length covering every
character of the input, so a non-empty input yields at least one chunk and
an input no longer than the maximum yields itself as the single chunk. -/
def splitChunksAux (maxLen step : Nat) : Nat → List Char → List (List Char)
  | _, [] => []
  | 0, cs => [cs]
  | fuel + 1, cs =>
    if cs.length ≤ maxLen then [cs]
    else cs.take maxLen :: splitChunksAux maxLen step fuel (cs.drop step)

/-- Modelled from the spec: chunking of one text with the configured size
and overlap (see splitChunksAux). -/
def splitChunks (maxLen overlap : Nat) (s : String) : List String :=
  (splitChunksAux maxLen (max 1 (maxLen - overlap)) s.data.length s.data).map
    fun l => ⟨l⟩

/-- Chunks produced for one article: none when process_articles drops the
entry, otherwise the chunks of its raw text. -/
def segmentArticle (title content : String) : List String :=
  match process_article_entry title content with
  | none => []
  | some e => splitChunks CHUNK_SIZE CHUNK_OVERLAP e.raw_text

/-! ## Statement vocabulary for the claims. -/

/-- Inputs whose braces occur only as two-character template markers, every
open marker matched by a close marker, properly nested: the empty text, a
non-brace character followed by balanced text, or a complete template
enclosing balanced text followed by balanced text. -/
inductive BalancedTemplates : List Char → Prop where
  | nil : BalancedTemplates []
  | chr {c : Char} (h1 : c ≠ lbrace) (h2 : c ≠ rbrace) {cs : List Char}
      (h : BalancedTemplates cs) : BalancedTemplates (c :: cs)
  | tmpl {b rest : List Char} (hb : BalancedTemplates b) (hr : BalancedTemplates rest) :
      BalancedTemplates (lbrace :: lbrace :: b ++ rbrace :: rbrace :: rest)

/-- A line consisting only of whitespace characters (the empty line
included). -/
def blankLine (l : List Char) : Prop := ∀ c ∈ l, pyIsSpace c = true

/-- The text has no three consecutive blank lines. -/
def noThreeBlankLines (s : String) : Prop :=
  ∀ u v l1 l2 l3, splitNl s.data = u ++ l1 :: l2 :: l3 :: v →
    ¬(blankLine l1 ∧ blankLine l2 ∧ blankLine l3)

/-- The text has no run of two or more horizontal whitespace characters. -/
def noDoubleHspace (s : String) : Prop :=
  ∀ u v a b, s.data = u ++ a :: b :: v → ¬(isHspace a = true ∧ isHspace b = true)

/-- The text has no leading and no trailing whitespace character. -/
def noEdgeWhitespace (s : String) : Prop :=
  (∀ c, s.data.head? = some c → pyIsSpace c = false) ∧
  (∀ c, s.data.getLast? = some c → pyIsSpace c = false)

/-- A line produced by the line filter: empty, or non-empty with
non-whitespace first and last characters and no newline inside. -/
def LineOK (l : List Char) : Prop :=
  l = [] ∨ ((∀ c, l.head? = some c → pyIsSpace c = false) ∧
    (∀ c, l.getLast? = some c → pyIsSpace c = false) ∧ l ≠ [] ∧ '\n' ∉ l)

/-- A line list produced by the line filter: every line LineOK and no two
adjacent empty lines. -/
def LinesOK (L : List (List Char)) : Prop :=
  (∀ l ∈ L, LineOK l) ∧ List.Chain' (fun a b => a ≠ [] ∨ b ≠ []) L

/-- No whitespace run in the text contains three or more newlines: at every
newline, the newline count of the maximal whitespace run it starts is below
three (so the blank-line collapse finds nothing to do). -/
def noTripleNl (cs : List Char) : Prop :=
  ∀ u v, cs = u ++ '\n' :: v →
    (('\n' :: v.takeWhile pyIsSpace).countP (fun x => x == '\n')) < 3

/-! # Theorems -/

/-! ## C10: the filesystem-safe title encoding is not injective, and the
skip-existing check of main therefore skips a never-fetched title. -/

/-- Claim C10: get_safe_filename is not injective — the distinct titles
"a/b" and "a_b" share a filename, as do " a" and "a" — and main's
skip-existing check consequently treats the colliding title "a_b" as
already fetched once "a/b" has been saved, fetching nothing. -/
theorem c10_safe_filename_not_injective :
    get_safe_filename "a/b" = get_safe_filename "a_b" ∧ ("a/b" : String) ≠ "a_b" ∧
    get_safe_filename " a" = get_safe_filename "a" ∧ (" a" : String) ≠ "a" ∧
    pages_to_fetch ["a_b"] [get_safe_filename "a/b"] = [] := by decide

/-! ## C2: resume slicing. -/

/-- Claim C2 (code bug evaluation): with resume mode active, a checkpoint
recording processed_count = 1 and a discovery of exactly one article
(k = 1 ≥ n = 1), the code leaves the article list unsliced — it prints
"Nothing to do." but the remaining-articles list still holds the one
discovered article, which is then re-processed, where the claim requires
zero articles to be processed. -/
theorem c2_resume_overrun_evaluation :
    remainingArticles ["A"] 1 true = ["A"] ∧
    (remainingArticles ["A"] 1 true).length = 1 := by decide

/-! ## C1: index-write retry exhaustion and the failure manifest. -/

/-- Claim C1 counterexample: a batch containing the article "T1" whose
chunking succeeded (batch_failed empty) and whose index write fails on
every attempt (RETRY_ADD_DOCS = 2, so attempts 1, 2, 3 all fail) ends with
an exception escaping to the outer handler and records nothing in
failed_articles: "T1" is not in the failure list, contradicting the claim
that every article of the batch is recorded. -/
theorem c1_counterexample :
    handleBatch true [] (fun _ => false) 2 =
      { indexed := false, raisedToOuter := true, failedRecorded := [] } ∧
    "T1" ∉ (handleBatch true [] (fun _ => false) 2).failedRecorded := by decide

/-- Claim C1 amended: when the index write fails on the initial attempt and
on every retry, the exception escapes to the outer batch handler, which
only logs; the batch is dropped with nothing recorded in failed_articles —
even per-article chunking failures of that batch are skipped — so the
failure manifest never mentions the batch's articles. -/
theorem c1_amended (batchFailed : List String) (addOk : Nat → Bool) (r : Nat)
    (h : ∀ a, addOk a = false) :
    handleBatch true batchFailed addOk r =
      { indexed := false, raisedToOuter := true, failedRecorded := [] } := by
  have hs : addDocsSucceeds addOk r = false := by
    simp [addDocsSucceeds, h]
  simp [handleBatch, hs]

/-- Witness for c1_amended at a concrete batch with a chunking failure
entry and an always-failing index write. -/
theorem c1_witness :
    handleBatch true ["X: boom"] (fun _ => false) 2 =
      { indexed := false, raisedToOuter := true, failedRecorded := [] } :=
  c1_amended ["X: boom"] (fun _ => false) 2 (fun _ => rfl)

/-! ## C4: content-fetch retry policy. -/

/-- Claim C4 counterexample: with no Retry-After header and rate-limiting
on the first three attempts, the waits performed are 2, 4, 6 — the linear
progression BASE_WAIT * (attempt + 1) — whereas an exponential backoff
computed from the base delay and the attempt number would give 2, 4, 8:
the third wait is 6, not expBackoffSpec BASE_WAIT 2 = 8. -/
theorem c4_counterexample :
    (get_wikitexts_batch_with_retry
        (fun a => if a < 3 then .apiError "ratelimited" none
          else .ok [("Title", "Content")])).waits = [2, 4, 6] ∧
    expBackoffSpec BASE_WAIT 2 = 8 ∧
    [2, 4, 6] ≠ [expBackoffSpec BASE_WAIT 0, expBackoffSpec BASE_WAIT 1,
      expBackoffSpec BASE_WAIT 2] := by decide

/-- Helper: the retry loop starts at most n further attempts when n
iterations remain. -/
theorem fetchGo_attempts_le (resp : Nat → FetchResp) :
    ∀ n att ws, (fetchGo resp n att ws).attempts ≤ att + n := by
  intro n
  induction n with
  | zero => intro att ws; simp [fetchGo]
  | succ n ih =>
    intro att ws
    cases h : resp att with
    | httpError status =>
      simp only [fetchGo, h]
      exact le_trans (ih (att + 1) _) (by omega)
    | invalidJson =>
      simp only [fetchGo, h]
      exact le_trans (ih (att + 1) _) (by omega)
    | apiError code retryAfter =>
      simp only [fetchGo, h]
      split
      · exact le_trans (ih (att + 1) _) (by omega)
      · show att + 1 ≤ att + (n + 1)
        omega
    | ok rs => simp only [fetchGo, h]; omega
    | reqException =>
      simp only [fetchGo, h]
      exact le_trans (ih (att + 1) _) (by omega)

/-- Claim C4 amended: a retryable failure (HTTP error, or application
error maxlag/ratelimited/readonly) is retried with at most MAX_RETRIES
attempts in total; the wait before a retry of a retryable application
error is the server-suggested Retry-After interval when present, otherwise
the linear backoff BASE_WAIT * (attempt + 1); the stub that rate-limits
the first 2 attempts then succeeds yields exactly 3 attempts, waits 2 then
4, and a successful result, and a stub carrying Retry-After 30 waits 30
seconds. -/
theorem c4_amended :
    (∀ resp : Nat → FetchResp,
      (get_wikitexts_batch_with_retry resp).attempts ≤ MAX_RETRIES) ∧
    get_wikitexts_batch_with_retry
        (fun a => if a < 2 then .apiError "ratelimited" none
          else .ok [("Title", "Content")]) =
      { results := [("Title", "Content")], attempts := 3, waits := [2, 4],
        success := true } ∧
    get_wikitexts_batch_with_retry
        (fun a => if a = 0 then .apiError "maxlag" (some 30) else .ok []) =
      { results := [], attempts := 2, waits := [30], success := true } := by
  refine ⟨fun resp => ?_, by decide, by decide⟩
  simpa using fetchGo_attempts_le resp MAX_RETRIES 0 []

/-! ## C5: empty-content articles and the segmentation front end. -/

/-- Claim C5 counterexample: an article with title "X" and empty content is
not dropped by process_articles — its raw text is "Title: X" — and it
produces the single title-only chunk ["Title: X"], not the empty sequence
the claim requires. -/
theorem c5_counterexample :
    segmentArticle "X" "" = ["Title: X"] ∧ segmentArticle "X" "" ≠ [] := by decide

/-- Helper: stripping a list whose head is not whitespace yields a
non-empty list. -/
theorem pyStrip_cons_ne_nil {c : Char} (hc : pyIsSpace c = false) (l : List Char) :
    pyStrip (c :: l) ≠ [] := by
  have hd : (c :: l).dropWhile pyIsSpace = c :: l := by
    simp [List.dropWhile_cons, hc]
  show ((List.dropWhile pyIsSpace (c :: l)).reverse.dropWhile pyIsSpace).reverse ≠ []
  rw [hd]
  show List.rdropWhile pyIsSpace (c :: l) ≠ []
  rw [ne_eq, List.rdropWhile_eq_nil_iff]
  intro hall
  have := hall c (by simp)
  simp [hc] at this

/-- Helper: a non-empty list of at most the maximum chunk length is split
into itself as the single chunk. -/
theorem splitChunksAux_short (maxLen st : Nat) (l : List Char) (h1 : l ≠ [])
    (h2 : l.length ≤ maxLen) : splitChunksAux maxLen st l.length l = [l] := by
  cases l with
  | nil => exact absurd rfl h1
  | cons c cs =>
    show splitChunksAux maxLen st (cs.length + 1) (c :: cs) = [c :: cs]
    have heq : splitChunksAux maxLen st (cs.length + 1) (c :: cs) =
        if (c :: cs).length ≤ maxLen then [c :: cs]
        else (c :: cs).take maxLen ::
          splitChunksAux maxLen st cs.length ((c :: cs).drop st) := rfl
    rw [heq, if_pos h2]

/-- Helper: a text of at most the maximum chunk length is split into
itself as the single chunk. -/
theorem splitChunks_short (maxLen ov : Nat) (s : String) (h1 : s.data ≠ [])
    (h2 : s.data.length ≤ maxLen) : splitChunks maxLen ov s = [s] := by
  unfold splitChunks
  rw [splitChunksAux_short _ _ _ h1 h2]
  rfl

/-- Claim C5 amended: an article whose content is empty is not dropped and
does not yield the empty chunk sequence; it yields exactly one title-only
chunk "Title: " ++ title (whenever that text fits in one chunk, as any
real title does with the default CHUNK_SIZE of 1000). -/
theorem c5_amended (title : String) (h : ("Title: " ++ title).length ≤ CHUNK_SIZE) :
    segmentArticle title "" = ["Title: " ++ title] := by
  have hdata : ("Title: " ++ title).data = 'T' :: ("itle: ".data ++ title.data) := by
    simp
  have hne : pyStripS ("Title: " ++ title) ≠ "" := by
    intro hcontra
    have h2 : pyStrip (("Title: " ++ title).data) = [] := congrArg String.data hcontra
    rw [hdata] at h2
    exact pyStrip_cons_ne_nil (by decide) _ h2
  have hpe : process_article_entry title "" =
      some ⟨title, "Title: " ++ title, articleSource title⟩ := by
    have hpe0 : process_article_entry title "" =
        if pyStripS ("Title: " ++ title) ≠ "" then
          some ⟨title, "Title: " ++ title, articleSource title⟩
        else none := rfl
    rw [hpe0, if_pos hne]
  show (match process_article_entry title "" with
    | none => []
    | some e => splitChunks CHUNK_SIZE CHUNK_OVERLAP e.raw_text) = ["Title: " ++ title]
  rw [hpe]
  exact splitChunks_short _ _ _ (by rw [hdata]; exact List.cons_ne_nil _ _) h

/-- Witness for c5_amended at the concrete title "X". -/
theorem c5_witness : segmentArticle "X" "" = ["Title: X"] ∧
    ("Title: " ++ "X").length ≤ CHUNK_SIZE :=
  ⟨c5_amended "X" (by decide), by decide⟩

/-! ## C6: header collapsing. -/

set_option maxRecDepth 10000 in
/-- Claim C6 counterexample: the Normalizer turns the line
"=== Heading ===" into "## Heading", not into its bare inner text
"Heading" — no line of the output equals "Heading". -/
theorem c6_counterexample :
    clean_with_regex "=== Heading ===" = "## Heading" ∧
    ("## Heading" : String) ≠ "Heading" ∧
    ∀ l ∈ splitNl (clean_with_regex "=== Heading ===").data, l ≠ "Heading".data := by
  decide

/-- Claim C6 amended: a header line whose closing equals-signs end the line
is collapsed to "## " followed by its inner text (a markdown-style
header); the bare inner text is produced only when trailing whitespace
follows the closing equals-signs, in which case only the second header
pass matches. -/
theorem c6_amended :
    clean_with_regex "=== Heading ===" = "## Heading" ∧
    clean_with_regex "=== Heading === " = "Heading" ∧
    clean_with_regex "x\n== Skills ==\ny" = "x\n## Skills\ny" := by decide

/-! ## C7: Normalizer idempotence. -/

/-- Claim C7 counterexample: the Normalizer is not idempotent on its own
output — for the input "&a&b;c;" the entity-removal pass produces the new
entity "&ac;", which a second run deletes entirely, so running the
Normalizer twice differs from running it once. -/
theorem c7_counterexample :
    clean_with_regex (clean_with_regex "&a&b;c;") ≠ clean_with_regex "&a&b;c;" := by
  decide

/-- Claim C7 amended: the Normalizer is idempotent on already-clean text —
text it leaves unchanged is unchanged by a second run — and in particular
on plain prose such as "Hello world."; it is not idempotent on every
output, since entity removal can create new entity references. -/
theorem c7_amended :
    (∀ s : String, clean_with_regex s = s →
      clean_with_regex (clean_with_regex s) = clean_with_regex s) ∧
    clean_with_regex (clean_with_regex "Hello world.") =
      clean_with_regex "Hello world." := by
  refine ⟨fun s h => ?_, by decide⟩
  rw [h]
  exact h

/-- Witness for c7_amended applied at the concrete fixed point
"Hello world.". -/
theorem c7_witness :
    clean_with_regex (clean_with_regex "Hello world.") =
      clean_with_regex "Hello world." :=
  c7_amended.1 "Hello world." (by decide)

/-! ## Lemmas about remove_nested_templates, for C3 and C9. -/

/-- Helper: with a zero depth counter, the inner scan stops at once. -/
theorem rntInner_zero : ∀ t : List Char, rntInner t 0 = (t, 0) := by
  intro t
  match t with
  | [] => rfl
  | [c] => rfl
  | c1 :: c2 :: rest => simp [rntInner]

/-- Helper: the inner scan only drops characters. -/
theorem rntInner_length_le :
    ∀ (n : Nat) (t : List Char) (bc : Nat), t.length ≤ n →
      (rntInner t bc).1.length ≤ t.length := by
  intro n
  induction n with
  | zero =>
    intro t bc h
    match t with
    | [] => simp [rntInner]
  | succ n ih =>
    intro t bc h
    match t with
    | [] => simp [rntInner]
    | [c] => simp [rntInner]
    | c1 :: c2 :: rest =>
      by_cases hbc : bc = 0
      · simp [rntInner, hbc]
      · by_cases h1 : c1 = lbrace ∧ c2 = lbrace
        · have := ih rest (bc + 1) (by simp at h; omega)
          simp only [rntInner, if_neg hbc, if_pos h1]
          calc (rntInner rest (bc + 1)).1.length ≤ rest.length := this
            _ ≤ (c1 :: c2 :: rest).length := by simp only [List.length_cons]; omega
        · by_cases h2 : c1 = rbrace ∧ c2 = rbrace
          · have := ih rest (bc - 1) (by simp at h; omega)
            simp only [rntInner, if_neg hbc, if_neg h1, if_pos h2]
            calc (rntInner rest (bc - 1)).1.length ≤ rest.length := this
              _ ≤ (c1 :: c2 :: rest).length := by simp only [List.length_cons]; omega
          · have := ih (c2 :: rest) bc (by simp at h ⊢; omega)
            simp only [rntInner, if_neg hbc, if_neg h1, if_neg h2]
            calc (rntInner (c2 :: rest) bc).1.length ≤ (c2 :: rest).length := this
              _ ≤ (c1 :: c2 :: rest).length := by simp only [List.length_cons]; omega

/-- Helper: the outer scan does not depend on the fuel, as long as the fuel
covers the input length. -/
theorem rntAux_fuel :
    ∀ (f g : Nat) (cs : List Char), cs.length ≤ f → cs.length ≤ g →
      rntAux f cs = rntAux g cs := by
  intro f
  induction f with
  | zero =>
    intro g cs hf _
    match cs with
    | [] => cases g <;> rfl
  | succ f ih =>
    intro g cs hf hg
    match cs with
    | [] => cases g <;> rfl
    | [c] =>
      match g with
      | g + 1 => rfl
    | c1 :: c2 :: rest =>
      match g with
      | g + 1 =>
        simp only [rntAux]
        by_cases h1 : c1 = lbrace ∧ c2 = lbrace
        · simp only [if_pos h1]
          rcases hin : rntInner rest 1 with ⟨rem, bc⟩
          have hrem : rem.length ≤ rest.length := by
            have := rntInner_length_le rest.length rest 1 le_rfl
            rw [hin] at this
            exact this
          have hl : (c1 :: c2 :: rest).length = rest.length + 2 := by simp
          cases bc with
          | zero => exact ih g rem (by omega) (by omega)
          | succ k => exact ih g (c2 :: rest) (by simp at hf ⊢; omega) (by simp at hg ⊢; omega)
        · simp only [if_neg h1]
          rw [ih g (c2 :: rest) (by simp at hf ⊢; omega) (by simp at hg ⊢; omega)]

/-- Helper: on brace-free text the inner scan never changes the depth
counter. -/
theorem rntInner_braceFree :
    ∀ t : List Char, (∀ c ∈ t, c ≠ lbrace ∧ c ≠ rbrace) → ∀ bc,
      (rntInner t bc).2 = bc := by
  intro t
  induction t with
  | nil => intro _ bc; rfl
  | cons c t' ih =>
    intro h bc
    match t' with
    | [] => rfl
    | c2 :: rest =>
      by_cases hbc : bc = 0
      · simp [rntInner, hbc]
      · have h1 : ¬(c = lbrace ∧ c2 = lbrace) := fun hp => (h c (by simp)).1 hp.1
        have h2 : ¬(c = rbrace ∧ c2 = rbrace) := fun hp => (h c (by simp)).2 hp.1
        simp only [rntInner, if_neg hbc, if_neg h1, if_neg h2]
        exact ih (fun x hx => h x (by simp [hx])) bc

/-- Helper: brace-free text passes through the outer scan unchanged. -/
theorem rntAux_braceFree_id :
    ∀ t : List Char, (∀ c ∈ t, c ≠ lbrace ∧ c ≠ rbrace) → ∀ f, t.length ≤ f →
      rntAux f t = t := by
  intro t
  induction t with
  | nil => intro _ f _; cases f <;> rfl
  | cons c t' ih =>
    intro h f hf
    match f with
    | f + 1 =>
      match t' with
      | [] => rfl
      | c2 :: rest =>
        have h1 : ¬(c = lbrace ∧ c2 = lbrace) := fun hp => (h c (by simp)).1 hp.1
        simp only [rntAux, if_neg h1]
        rw [ih (fun x hx => h x (by simp [hx])) f (by simp at hf ⊢; omega)]

/-- Helper: one outer step over a non-brace head. -/
theorem rntAux_cons_nonbrace (c : Char) (h1 : c ≠ lbrace) (t : List Char) (ht : t ≠ []) :
    rntAux (t.length + 1) (c :: t) = c :: rntAux t.length t := by
  match t with
  | t1 :: trest =>
    have hno : ¬(c = lbrace ∧ t1 = lbrace) := fun hp => h1 hp.1
    match trest with
    | [] => simp [rntAux, hno]
    | t2 :: trest2 => simp only [rntAux, if_neg hno]

/-- Helper: an unmatched open marker after a brace-free prefix loses only
its first brace; the scan resumes at the second brace and copies the
brace-free remainder. -/
theorem rntAux_unbalanced (a b : List Char)
    (ha : ∀ c ∈ a, c ≠ lbrace ∧ c ≠ rbrace) (hb : ∀ c ∈ b, c ≠ lbrace ∧ c ≠ rbrace) :
    rntAux (a ++ lbrace :: lbrace :: b).length (a ++ lbrace :: lbrace :: b) =
      a ++ lbrace :: b := by
  induction a with
  | nil =>
    show rntAux (b.length + 2) (lbrace :: lbrace :: b) = lbrace :: b
    have hstep : rntAux (b.length + 2) (lbrace :: lbrace :: b) =
        if lbrace = lbrace ∧ lbrace = lbrace then
          match rntInner b 1 with
          | (rem, 0) => rntAux (b.length + 1) rem
          | (_, _ + 1) => rntAux (b.length + 1) (lbrace :: b)
        else lbrace :: rntAux (b.length + 1) (lbrace :: b) := rfl
    rw [hstep, if_pos ⟨rfl, rfl⟩]
    rcases hin : rntInner b 1 with ⟨rem, bc⟩
    have hbc : bc = 1 := by
      have := rntInner_braceFree b hb 1
      rw [hin] at this
      exact this
    subst hbc
    show rntAux (b.length + 1) (lbrace :: b) = lbrace :: b
    match b with
    | [] => rfl
    | d :: bs =>
      have hno : ¬(lbrace = lbrace ∧ d = lbrace) := fun hp => (hb d (by simp)).1 hp.2
      have hstep2 : rntAux ((d :: bs).length + 1) (lbrace :: d :: bs) =
          if lbrace = lbrace ∧ d = lbrace then
            match rntInner bs 1 with
            | (rem, 0) => rntAux (d :: bs).length rem
            | (_, _ + 1) => rntAux (d :: bs).length (d :: bs)
          else lbrace :: rntAux (d :: bs).length (d :: bs) := rfl
      rw [hstep2, if_neg hno, rntAux_braceFree_id (d :: bs) hb (d :: bs).length le_rfl]
  | cons c a' ih =>
    have hne : a' ++ lbrace :: lbrace :: b ≠ [] := by simp
    have hlen : (c :: (a' ++ lbrace :: lbrace :: b)).length =
        (a' ++ lbrace :: lbrace :: b).length + 1 := by simp
    show rntAux ((c :: (a' ++ lbrace :: lbrace :: b)).length)
        (c :: (a' ++ lbrace :: lbrace :: b)) = c :: (a' ++ lbrace :: b)
    rw [hlen, rntAux_cons_nonbrace c (ha c (by simp)).1 _ hne,
      ih (fun x hx => ha x (by simp [hx]))]

/-- Helper: the inner scan passes over a balanced segment without changing
the depth counter. -/
theorem rntInner_balanced_append {b : List Char} (hb : BalancedTemplates b) :
    ∀ (rest : List Char) (bc : Nat), rest ≠ [] → bc ≠ 0 →
      rntInner (b ++ rest) bc = rntInner rest bc := by
  induction hb with
  | nil => intro rest bc _ _; rfl
  | @chr c h1 h2 cs _ ih =>
    intro rest bc hne hbc
    show rntInner (c :: (cs ++ rest)) bc = rntInner rest bc
    match hcr : cs ++ rest with
    | [] => exact absurd (List.append_eq_nil.mp hcr).2 hne
    | x :: xs =>
      have hno1 : ¬(c = lbrace ∧ x = lbrace) := fun hp => h1 hp.1
      have hno2 : ¬(c = rbrace ∧ x = rbrace) := fun hp => h2 hp.1
      simp only [rntInner, if_neg hbc, if_neg hno1, if_neg hno2]
      rw [← hcr, ih rest bc hne hbc]
  | @tmpl b' rest' _ _ ihb ihr =>
    intro rest bc hne hbc
    have hsplit : (lbrace :: lbrace :: b' ++ rbrace :: rbrace :: rest') ++ rest =
        lbrace :: lbrace :: (b' ++ rbrace :: rbrace :: (rest' ++ rest)) := by
      simp
    rw [hsplit]
    have hlb : ¬(lbrace = rbrace) := by decide
    have hstep : rntInner (lbrace :: lbrace :: (b' ++ rbrace :: rbrace :: (rest' ++ rest))) bc =
        rntInner (b' ++ rbrace :: rbrace :: (rest' ++ rest)) (bc + 1) := by
      simp [rntInner, hbc]
    rw [hstep, ihb (rbrace :: rbrace :: (rest' ++ rest)) (bc + 1) (by simp) (by omega)]
    have hrb : ¬(rbrace = lbrace) := by decide
    have hstep2 : rntInner (rbrace :: rbrace :: (rest' ++ rest)) (bc + 1) =
        rntInner (rest' ++ rest) bc := by
      simp [rntInner, hrb]
    rw [hstep2, ihr rest bc hne hbc]

/-- Helper: scanning a balanced prefix emits no brace character beyond what
scanning the remainder emits. -/
theorem rntAux_balanced_mem {b : List Char} (hb : BalancedTemplates b) :
    ∀ r : List Char,
      (∀ c ∈ rntAux r.length r, c ≠ lbrace ∧ c ≠ rbrace) →
      ∀ c ∈ rntAux (b ++ r).length (b ++ r), c ≠ lbrace ∧ c ≠ rbrace := by
  induction hb with
  | nil => intro r hr; simpa using hr
  | @chr c h1 h2 cs _ ih =>
    intro r hr c' hc'
    have hmem : c' ∈ rntAux ((c :: (cs ++ r)).length) (c :: (cs ++ r)) := hc'
    match hcr : cs ++ r with
    | [] =>
      rw [hcr] at hmem
      have : c' = c := by simpa [rntAux] using hmem
      exact this ▸ ⟨h1, h2⟩
    | x :: xs =>
      rw [hcr] at hmem
      have hlen : (c :: x :: xs).length = (x :: xs).length + 1 := by simp
      rw [hlen, rntAux_cons_nonbrace c h1 (x :: xs) (by simp)] at hmem
      rcases List.mem_cons.mp hmem with hceq | hmem2
      · exact hceq ▸ ⟨h1, h2⟩
      · rw [← hcr] at hmem2
        exact ih r hr c' hmem2
  | @tmpl b' rest' hb' _ ihb ihr =>
    intro r hr c' hc'
    have hsplit : (lbrace :: lbrace :: b' ++ rbrace :: rbrace :: rest') ++ r =
        lbrace :: lbrace :: (b' ++ rbrace :: rbrace :: (rest' ++ r)) := by
      simp
    rw [hsplit] at hc'
    have hin : rntInner (b' ++ rbrace :: rbrace :: (rest' ++ r)) 1 = (rest' ++ r, 0) := by
      rw [rntInner_balanced_append hb' _ 1 (by simp) (by omega)]
      have hrb : ¬(rbrace = lbrace) := by decide
      have hred : rntInner (rbrace :: rbrace :: (rest' ++ r)) 1 =
          rntInner (rest' ++ r) 0 := by
        simp [rntInner, hrb]
      rw [hred, rntInner_zero]
    set X := b' ++ rbrace :: rbrace :: (rest' ++ r) with hX
    have hstep : rntAux ((lbrace :: lbrace :: X).length) (lbrace :: lbrace :: X) =
        match rntInner X 1 with
        | (rem, 0) => rntAux (X.length + 1) rem
        | (_, _ + 1) => rntAux (X.length + 1) (lbrace :: X) := by
      rfl
    rw [hstep, hin] at hc'
    have hc2 : c' ∈ rntAux (X.length + 1) (rest' ++ r) := hc'
    have hfuel : rntAux (X.length + 1) (rest' ++ r) =
        rntAux (rest' ++ r).length (rest' ++ r) := by
      apply rntAux_fuel
      · simp [hX]
        omega
      · exact le_rfl
    rw [hfuel] at hc2
    exact ihr r hr c' hc2

/-! ## C3: unbalanced open markers in remove_nested_templates. -/

set_option maxRecDepth 4000 in
/-- Claim C3 counterexample: on the input "ab" ++ two open braces ++ "cd",
which ends with an unmatched open marker, remove_nested_templates keeps
the text after the marker — it returns "ab" ++ one brace ++ "cd", not the
prefix "ab" the claim requires (dropping everything from the marker on). -/
theorem c3_counterexample :
    remove_nested_templates "ab\x7b\x7bcd" = "ab\x7bcd" ∧
    ("ab\x7bcd" : String) ≠ "ab" := by decide

/-- Claim C3 amended: the nested-template remover never raises (it is a
total function), and on an input consisting of brace-free text, an
unmatched open marker, and brace-free text, it does not drop the tail:
failing to find the matching close marker it skips a single brace
character and rescans, so exactly one open brace is lost and all other
characters are kept. -/
theorem c3_amended (a b : String)
    (ha : ∀ c ∈ a.data, c ≠ lbrace ∧ c ≠ rbrace)
    (hb : ∀ c ∈ b.data, c ≠ lbrace ∧ c ≠ rbrace) :
    remove_nested_templates (a ++ "\x7b\x7b" ++ b) = a ++ "\x7b" ++ b := by
  have hdata : (a ++ "\x7b\x7b" ++ b).data = a.data ++ lbrace :: lbrace :: b.data := by
    simp
    rfl
  have hdata2 : (a ++ "\x7b" ++ b).data = a.data ++ lbrace :: b.data := by
    simp
    rfl
  show (⟨rntAux (a ++ "\x7b\x7b" ++ b).data.length (a ++ "\x7b\x7b" ++ b).data⟩ : String)
      = a ++ "\x7b" ++ b
  rw [hdata]
  rw [rntAux_unbalanced a.data b.data ha hb, ← hdata2]

/-- Witness for c3_amended at the concrete input "ab" ++ open marker ++
"cd". -/
theorem c3_witness :
    remove_nested_templates ("ab" ++ "\x7b\x7b" ++ "cd") = "ab" ++ "\x7b" ++ "cd" :=
  c3_amended "ab" "cd" (by decide) (by decide)

/-! ## C9: balanced inputs leave no marker pairs. -/

/-- Claim C9: for every input whose braces occur only as balanced, properly
nested two-character template markers, the output of
remove_nested_templates contains no open marker pair and no close marker
pair; and on the example input with a nested template the output is
"Hello  World". -/
theorem c9_balanced_no_marker_pairs :
    (∀ s : String, BalancedTemplates s.data →
      (¬∃ u v, (remove_nested_templates s).data = u ++ lbrace :: lbrace :: v) ∧
      (¬∃ u v, (remove_nested_templates s).data = u ++ rbrace :: rbrace :: v)) ∧
    remove_nested_templates "Hello \x7b\x7bcite|x=\x7b\x7by\x7d\x7d\x7d\x7d World" =
      "Hello  World" := by
  constructor
  · intro s hb
    have hmem : ∀ c ∈ rntAux (s.data ++ []).length (s.data ++ []),
        c ≠ lbrace ∧ c ≠ rbrace := by
      apply rntAux_balanced_mem hb
      intro c hc
      simp [rntAux] at hc
    rw [List.append_nil] at hmem
    have hout : (remove_nested_templates s).data = rntAux s.data.length s.data := rfl
    constructor
    · rintro ⟨u, v, huv⟩
      have : lbrace ∈ (remove_nested_templates s).data := by
        rw [huv]
        simp
      rw [hout] at this
      exact (hmem lbrace this).1 rfl
    · rintro ⟨u, v, huv⟩
      have : rbrace ∈ (remove_nested_templates s).data := by
        rw [huv]
        simp
      rw [hout] at this
      exact (hmem rbrace this).2 rfl
  · decide

/-- Witness for c9_balanced_no_marker_pairs at a concrete balanced input. -/
theorem c9_witness :
    ¬∃ u v, (remove_nested_templates
      ⟨['a', lbrace, lbrace, 'z', rbrace, rbrace, 'b']⟩).data =
        u ++ lbrace :: lbrace :: v := by
  have hb : BalancedTemplates ['a', lbrace, lbrace, 'z', rbrace, rbrace, 'b'] := by
    have hshape : ['a', lbrace, lbrace, 'z', rbrace, rbrace, 'b'] =
        'a' :: (lbrace :: lbrace :: ['z'] ++ rbrace :: rbrace :: ['b']) := rfl
    rw [hshape]
    exact .chr (by decide) (by decide)
      (.tmpl (.chr (by decide) (by decide) .nil) (.chr (by decide) (by decide) .nil))
  exact (c9_balanced_no_marker_pairs.1 ⟨['a', lbrace, lbrace, 'z', rbrace, rbrace, 'b']⟩
    hb).1

/-! ## Lemmas about the final whitespace section, for C8. -/

/-- Helper: splitting never yields an empty list of lines. -/
theorem splitNl_ne_nil : ∀ cs : List Char, splitNl cs ≠ [] := by
  intro cs
  match cs with
  | [] => simp [splitNl]
  | c :: rest =>
    simp only [splitNl]
    match splitNl rest with
    | [] => simp
    | l :: ls =>
      by_cases h : c = '\n' <;> simp [h]

/-- Helper: lines produced by splitting contain no newline. -/
theorem splitNl_nl_free : ∀ (cs : List Char) (l : List Char), l ∈ splitNl cs → '\n' ∉ l := by
  intro cs
  induction cs with
  | nil =>
    intro l hl
    simp [splitNl] at hl
    simp [hl]
  | cons c rest ih =>
    intro l hl
    simp only [splitNl] at hl
    match hsp : splitNl rest with
    | [] => exact absurd hsp (splitNl_ne_nil rest)
    | l0 :: ls =>
      rw [hsp] at hl
      have hl2 : l ∈ (if c = '\n' then [] :: l0 :: ls else (c :: l0) :: ls) := hl
      by_cases hc : c = '\n'
      · rw [if_pos hc] at hl2
        rcases List.mem_cons.mp hl2 with h1 | h2
        · simp [h1]
        · exact ih l (hsp ▸ h2)
      · rw [if_neg hc] at hl2
        rcases List.mem_cons.mp hl2 with h1 | h2
        · subst h1
          intro hmem
          rcases List.mem_cons.mp hmem with h3 | h4
          · exact hc h3.symm
          · exact ih l0 (hsp ▸ List.mem_cons_self l0 ls) h4
        · exact ih l (hsp ▸ List.mem_cons.mpr (Or.inr h2))

/-- Helper: joining inverts splitting. -/
theorem inter_splitNl : ∀ cs : List Char, intercalateNl (splitNl cs) = cs := by
  intro cs
  induction cs with
  | nil => rfl
  | cons c rest ih =>
    simp only [splitNl]
    match hsp : splitNl rest with
    | [] => exact absurd hsp (splitNl_ne_nil rest)
    | l0 :: ls =>
      rw [hsp] at ih
      show intercalateNl (if c = '\n' then [] :: l0 :: ls else (c :: l0) :: ls) = c :: rest
      by_cases hc : c = '\n'
      · rw [if_pos hc]
        subst hc
        show intercalateNl ([] :: l0 :: ls) = '\n' :: rest
        show [] ++ '\n' :: intercalateNl (l0 :: ls) = '\n' :: rest
        rw [List.nil_append, ih]
      · rw [if_neg hc]
        match ls with
        | [] =>
          show c :: l0 = c :: rest
          rw [show intercalateNl [l0] = l0 from rfl] at ih
          rw [ih]
        | l1 :: ls' =>
          show (c :: l0) ++ '\n' :: intercalateNl (l1 :: ls') = c :: rest
          rw [List.cons_append, ← ih]
          rfl

/-- Helper: joining a two-line-or-longer list. -/
theorem inter_cons_cons (x y : List Char) (L : List (List Char)) :
    intercalateNl (x :: y :: L) = x ++ '\n' :: intercalateNl (y :: L) := rfl

/-- Helper: joining distributes over appending non-empty line lists. -/
theorem inter_append_left :
    ∀ (X Y : List (List Char)), X ≠ [] → Y ≠ [] →
      intercalateNl (X ++ Y) = intercalateNl X ++ '\n' :: intercalateNl Y := by
  intro X
  induction X with
  | nil => intro Y h _; exact absurd rfl h
  | cons x X' ih =>
    intro Y _ hY
    match X' with
    | [] =>
      match Y with
      | y :: Y' =>
        show intercalateNl (x :: y :: Y') = x ++ '\n' :: intercalateNl (y :: Y')
        exact inter_cons_cons x y Y'
    | x2 :: X'' =>
      have h1 : (x2 :: X'') ++ Y ≠ [] := by simp
      calc intercalateNl (x :: (x2 :: X'' ++ Y))
          = x ++ '\n' :: intercalateNl (x2 :: X'' ++ Y) := by
            match hE : x2 :: X'' ++ Y with
            | [] => exact absurd hE h1
            | e :: es => exact inter_cons_cons x e es
        _ = x ++ '\n' :: (intercalateNl (x2 :: X'') ++ '\n' :: intercalateNl Y) := by
            rw [ih Y (by simp) hY]
        _ = intercalateNl (x :: x2 :: X'') ++ '\n' :: intercalateNl Y := by
            rw [inter_cons_cons]
            simp

/-- Helper: the head of a dropWhile result does not satisfy the
predicate. -/
theorem dropWhile_head_not (p : Char → Bool) :
    ∀ (cs : List Char) (c : Char), (cs.dropWhile p).head? = some c → p c = false := by
  intro cs
  induction cs with
  | nil => intro c h; simp [List.dropWhile] at h
  | cons a l ih =>
    intro c h
    by_cases hp : p a
    · rw [List.dropWhile_cons, if_pos hp] at h
      exact ih c h
    · rw [List.dropWhile_cons, if_neg hp] at h
      simp at h
      rw [← h]
      exact Bool.of_not_eq_true hp

/-- Helper: the stripped text has no leading whitespace. -/
theorem pyStrip_head (cs : List Char) :
    ∀ c, (pyStrip cs).head? = some c → pyIsSpace c = false := by
  intro c hc
  have heq : pyStrip cs = (cs.dropWhile pyIsSpace).rdropWhile pyIsSpace := rfl
  rw [heq] at hc
  rcases List.rdropWhile_prefix pyIsSpace (cs.dropWhile pyIsSpace) with ⟨t, ht⟩
  match hr : (cs.dropWhile pyIsSpace).rdropWhile pyIsSpace with
  | [] => rw [hr] at hc; simp at hc
  | a :: r =>
    rw [hr] at hc ht
    simp at hc
    subst hc
    apply dropWhile_head_not pyIsSpace cs
    rw [← ht]
    simp

/-- Helper: the stripped text has no trailing whitespace. -/
theorem pyStrip_last (cs : List Char) :
    ∀ c, (pyStrip cs).getLast? = some c → pyIsSpace c = false := by
  intro c hc
  have heq : pyStrip cs = (cs.dropWhile pyIsSpace).rdropWhile pyIsSpace := rfl
  rw [heq] at hc
  have hne : (cs.dropWhile pyIsSpace).rdropWhile pyIsSpace ≠ [] := by
    intro h0
    rw [h0] at hc
    simp at hc
  have hlast := List.rdropWhile_last_not pyIsSpace (cs.dropWhile pyIsSpace) hne
  rw [List.getLast?_eq_getLast _ hne] at hc
  have : c = ((cs.dropWhile pyIsSpace).rdropWhile pyIsSpace).getLast hne := by
    simpa using hc.symm
  rw [this]
  exact Bool.of_not_eq_true hlast

/-- Helper: the stripped text is a contiguous segment of the input. -/
theorem pyStrip_isInfix (cs : List Char) : pyStrip cs <:+: cs := by
  have heq : pyStrip cs = (cs.dropWhile pyIsSpace).rdropWhile pyIsSpace := rfl
  rw [heq]
  have hpre := List.rdropWhile_prefix pyIsSpace (cs.dropWhile pyIsSpace)
  exact hpre.isInfix.trans (List.dropWhile_suffix pyIsSpace).isInfix

/-- Helper: taking while a predicate holds over an all-satisfying prefix. -/
theorem takeWhile_all_append (p : Char → Bool) :
    ∀ (l X : List Char), (∀ c ∈ l, p c = true) →
      (l ++ X).takeWhile p = l ++ X.takeWhile p := by
  intro l
  induction l with
  | nil => intro X _; rfl
  | cons c l' ih =>
    intro X h
    rw [List.cons_append, List.takeWhile_cons, if_pos (h c (by simp)), ih X
      (fun x hx => h x (by simp [hx])), List.cons_append]

/-- Helper: taking from a list extends taking from its prefix. -/
theorem takeWhile_prefix_append (p : Char → Bool) :
    ∀ (v t : List Char), v.takeWhile p <+: (v ++ t).takeWhile p := by
  intro v
  induction v with
  | nil => intro t; simp
  | cons c v' ih =>
    intro t
    by_cases hp : p c
    · rw [List.takeWhile_cons, if_pos hp, List.cons_append, List.takeWhile_cons, if_pos hp]
      rcases ih t with ⟨k, hk⟩
      exact ⟨k, by rw [List.cons_append, hk]⟩
    · rw [List.takeWhile_cons, if_neg hp, List.cons_append, List.takeWhile_cons, if_neg hp]

/-- Helper: a whitespace-run invariant survives passing to a contiguous
segment. -/
theorem noTripleNl_infix {cs' cs : List Char} (h : cs' <:+: cs)
    (hn : noTripleNl cs) : noTripleNl cs' := by
  rcases h with ⟨a, b, rfl⟩
  intro u v huv
  have hdec : a ++ cs' ++ b = (a ++ u) ++ '\n' :: (v ++ b) := by
    rw [huv]
    simp
  have hlt := hn (a ++ u) (v ++ b) hdec
  have hpre : v.takeWhile pyIsSpace <+: (v ++ b).takeWhile pyIsSpace :=
    takeWhile_prefix_append pyIsSpace v b
  have hcount : (v.takeWhile pyIsSpace).countP (fun x => x == '\n') ≤
      ((v ++ b).takeWhile pyIsSpace).countP (fun x => x == '\n') :=
    hpre.sublist.countP_le _
  simp only [List.countP_cons] at hlt ⊢
  omega

/-- Helper: dissecting an append at a newline that the left part lacks. -/
theorem append_char_cases :
    ∀ (l u v J : List Char), l ++ '\n' :: J = u ++ '\n' :: v → '\n' ∉ l →
      (u = l ∧ v = J) ∨ ∃ w, u = l ++ '\n' :: w ∧ J = w ++ '\n' :: v := by
  intro l
  induction l with
  | nil =>
    intro u v J h _
    match u with
    | [] =>
      simp at h
      exact Or.inl ⟨rfl, h.symm⟩
    | x :: u' =>
      simp at h
      exact Or.inr ⟨u', by simp [h.1.symm], h.2⟩
  | cons c l' ih =>
    intro u v J h hnl
    match u with
    | [] =>
      simp at h
      exact absurd (by simp [h.1]) hnl
    | x :: u' =>
      simp at h
      rcases ih u' v J h.2 (fun hm => hnl (by simp [hm])) with ⟨h1, h2⟩ | ⟨w, h1, h2⟩
      · exact Or.inl ⟨by simp [h.1, h1], h2⟩
      · exact Or.inr ⟨w, by simp [h.1, h1], h2⟩

/-- Helper: when no whitespace run holds three newlines, the blank-line
collapse changes nothing. -/
theorem bcAux_id :
    ∀ (f : Nat) (cs : List Char), cs.length ≤ f → noTripleNl cs → bcAux f cs = cs := by
  intro f
  induction f with
  | zero =>
    intro cs h _
    match cs with
    | [] => rfl
  | succ f ih =>
    intro cs h hn
    match cs with
    | [] => rfl
    | c :: rest =>
      have hrest : noTripleNl rest := by
        intro u v huv
        exact hn (c :: u) v (by simp [huv])
      by_cases hc : c = '\n'
      · subst hc
        have hcnt := hn [] rest (by simp)
        have hred : bcAux (f + 1) ('\n' :: rest) =
            if ('\n' : Char) = '\n' then
              if 3 ≤ (('\n' :: rest.takeWhile pyIsSpace).countP (fun x => x == '\n')) then
                '\n' :: '\n' ::
                  bcAux f ((('\n' :: rest.takeWhile pyIsSpace).reverse.takeWhile
                    (fun x => x != '\n')).reverse ++ rest.drop (rest.takeWhile pyIsSpace).length)
              else '\n' :: bcAux f rest
            else '\n' :: bcAux f rest := rfl
        rw [hred, if_pos rfl, if_neg (by omega)]
        rw [ih rest (by simp at h; omega) hrest]
      · have hred : bcAux (f + 1) (c :: rest) =
            if c = '\n' then
              if 3 ≤ (('\n' :: rest.takeWhile pyIsSpace).countP (fun x => x == '\n')) then
                '\n' :: '\n' ::
                  bcAux f ((('\n' :: rest.takeWhile pyIsSpace).reverse.takeWhile
                    (fun x => x != '\n')).reverse ++ rest.drop (rest.takeWhile pyIsSpace).length)
              else c :: bcAux f rest
            else c :: bcAux f rest := by
          simp only [bcAux, if_neg hc]
        rw [hred, if_neg hc]
        rw [ih rest (by simp at h; omega) hrest]

/-- Helper: a LineOK line has no newline. -/
theorem LineOK_nl_free {l : List Char} (h : LineOK l) : '\n' ∉ l := by
  rcases h with h | ⟨_, _, _, h⟩
  · simp [h]
  · exact h

/-- Helper: the line filter keeps every accumulated invariant: lines are
stripped non-empty text or empty, with no two adjacent empty lines. -/
theorem filterLinesAux_ok :
    ∀ (ls : List (List Char)) (acc : List (List Char)),
      (∀ l ∈ ls, '\n' ∉ l) → (∀ l ∈ acc, LineOK l) →
      List.Chain' (fun a b => a ≠ [] ∨ b ≠ []) acc →
      (∀ l ∈ filterLinesAux acc ls, LineOK l) ∧
        List.Chain' (fun a b => a ≠ [] ∨ b ≠ []) (filterLinesAux acc ls) := by
  intro ls
  induction ls with
  | nil =>
    intro acc _ hmem hch
    constructor
    · intro l hl
      exact hmem l (List.mem_reverse.mp hl)
    · show List.Chain' _ acc.reverse
      rw [List.chain'_reverse]
      exact hch.imp (fun a b hab => hab.symm)
  | cons l0 ls' ih =>
    intro acc hnl hmem hch
    show (∀ l ∈ filterLinesAux acc (l0 :: ls'), LineOK l) ∧ _
    have hnl' : ∀ l ∈ ls', '\n' ∉ l := fun l hl => hnl l (by simp [hl])
    have hstripnl : '\n' ∉ pyStrip l0 := by
      intro hmem2
      exact hnl l0 (by simp) ((pyStrip_isInfix l0).subset hmem2)
    by_cases hkeep : pyStrip l0 ≠ [] ∧ isMarkupOnly (pyStrip l0) = false
    · have hred : filterLinesAux acc (l0 :: ls') =
          filterLinesAux (pyStrip l0 :: acc) ls' := by
        show (if pyStrip l0 ≠ [] ∧ isMarkupOnly (pyStrip l0) = false then
            filterLinesAux (pyStrip l0 :: acc) ls'
          else if acc.head? ≠ some ([] : List Char) then filterLinesAux ([] :: acc) ls'
          else filterLinesAux acc ls') = _
        rw [if_pos hkeep]
      rw [hred]
      apply ih (pyStrip l0 :: acc) hnl'
      · intro l hl
        rcases List.mem_cons.mp hl with h1 | h2
        · subst h1
          exact Or.inr ⟨pyStrip_head l0, pyStrip_last l0, hkeep.1, hstripnl⟩
        · exact hmem l h2
      · rw [List.chain'_cons']
        exact ⟨fun y _ => Or.inl hkeep.1, hch⟩
    · by_cases hhd : acc.head? ≠ some ([] : List Char)
      · have hred : filterLinesAux acc (l0 :: ls') = filterLinesAux ([] :: acc) ls' := by
          show (if pyStrip l0 ≠ [] ∧ isMarkupOnly (pyStrip l0) = false then
              filterLinesAux (pyStrip l0 :: acc) ls'
            else if acc.head? ≠ some ([] : List Char) then filterLinesAux ([] :: acc) ls'
            else filterLinesAux acc ls') = _
          rw [if_neg hkeep, if_pos hhd]
        rw [hred]
        apply ih ([] :: acc) hnl'
        · intro l hl
          rcases List.mem_cons.mp hl with h1 | h2
          · exact Or.inl h1
          · exact hmem l h2
        · rw [List.chain'_cons']
          refine ⟨fun y hy => Or.inr ?_, hch⟩
          intro hynil
          subst hynil
          exact hhd hy
      · have hred : filterLinesAux acc (l0 :: ls') = filterLinesAux acc ls' := by
          show (if pyStrip l0 ≠ [] ∧ isMarkupOnly (pyStrip l0) = false then
              filterLinesAux (pyStrip l0 :: acc) ls'
            else if acc.head? ≠ some ([] : List Char) then filterLinesAux ([] :: acc) ls'
            else filterLinesAux acc ls') = _
          rw [if_neg hkeep, if_neg hhd]
        rw [hred]
        exact ih acc hnl' hmem hch

/-- Helper: the line filter establishes the line invariant. -/
theorem filterLines_ok (cs : List Char) : LinesOK (filterLines (splitNl cs)) :=
  filterLinesAux_ok (splitNl cs) [] (fun l hl => splitNl_nl_free cs l hl)
    (by intro l hl; simp at hl) List.chain'_nil

/-- Helper: horizontal whitespace is whitespace. -/
theorem isHspace_isSpace {c : Char} (h : isHspace c = true) : pyIsSpace c = true := by
  rcases Bool.or_eq_true_iff.mp h with h1 | h1 <;>
    simp_all [isHspace, pyIsSpace]

/-- Helper: newlines are not horizontal whitespace. -/
theorem isHspace_nl : isHspace '\n' = false := by decide

/-- Helper: one step of the collapse. -/
theorem hcAux_cons (b : Bool) (a : Char) (l : List Char) :
    hcAux b (a :: l) =
      if isHspace a then (if b then hcAux true l else ' ' :: hcAux true l)
      else a :: hcAux false l := rfl

/-- Helper: a character that is not whitespace is not horizontal
whitespace. -/
theorem not_hspace {c : Char} (h : pyIsSpace c = false) : isHspace c = false := by
  cases hh : isHspace c with
  | false => rfl
  | true =>
    rw [isHspace_isSpace hh] at h
    exact absurd h (by simp)

/-- Helper: a character of the collapsed text is a space or came from the
input. -/
theorem hcAux_mem : ∀ (b : Bool) (cs : List Char) (c : Char),
    c ∈ hcAux b cs → c = ' ' ∨ c ∈ cs := by
  intro b cs
  induction cs generalizing b with
  | nil => intro c hc; simp [hcAux] at hc
  | cons a l ih =>
    intro c hc
    rw [hcAux_cons] at hc
    by_cases ha : isHspace a
    · rw [if_pos ha] at hc
      cases b with
      | true =>
        rw [if_pos rfl] at hc
        rcases ih true c hc with h | h
        · exact Or.inl h
        · exact Or.inr (List.mem_cons_of_mem a h)
      | false =>
        rw [if_neg (by simp)] at hc
        rcases List.mem_cons.mp hc with h | h
        · exact Or.inl h
        · rcases ih true c h with h2 | h2
          · exact Or.inl h2
          · exact Or.inr (List.mem_cons_of_mem a h2)
    · rw [if_neg ha] at hc
      rcases List.mem_cons.mp hc with h | h
      · exact Or.inr (h ▸ List.mem_cons_self a l)
      · rcases ih false c h with h2 | h2
        · exact Or.inl h2
        · exact Or.inr (List.mem_cons_of_mem a h2)

/-- Helper: after a swallowed run, the next emitted character is not
horizontal whitespace. -/
theorem hcAux_true_head : ∀ (cs : List Char) (c : Char),
    (hcAux true cs).head? = some c → isHspace c = false := by
  intro cs
  induction cs with
  | nil => intro c h; simp [hcAux] at h
  | cons a l ih =>
    intro c h
    rw [hcAux_cons] at h
    by_cases ha : isHspace a
    · rw [if_pos ha, if_pos rfl] at h
      exact ih c h
    · rw [if_neg ha] at h
      simp at h
      subst h
      simpa using ha

/-- Helper: the collapsed text never has two adjacent horizontal whitespace
characters. -/
theorem hcAux_chain : ∀ (b : Bool) (cs : List Char),
    List.Chain' (fun x y => ¬(isHspace x = true ∧ isHspace y = true)) (hcAux b cs) := by
  intro b cs
  induction cs generalizing b with
  | nil => simp [hcAux]
  | cons a l ih =>
    rw [hcAux_cons]
    by_cases ha : isHspace a
    · rw [if_pos ha]
      cases b with
      | true =>
        rw [if_pos rfl]
        exact ih true
      | false =>
        rw [if_neg (by simp)]
        rw [List.chain'_cons']
        refine ⟨fun y hy => ?_, ih true⟩
        rintro ⟨_, hy2⟩
        rw [Option.mem_def] at hy
        rw [hcAux_true_head l y hy] at hy2
        exact absurd hy2 (by simp)
    · rw [if_neg ha]
      rw [List.chain'_cons']
      refine ⟨fun y hy => ?_, ih false⟩
      rintro ⟨hy1, _⟩
      exact ha hy1

/-- Helper: the collapse distributes over a newline separator. -/
theorem hcAux_append_line :
    ∀ (l r : List Char) (b : Bool), '\n' ∉ l →
      hcAux b (l ++ '\n' :: r) = hcAux b l ++ '\n' :: hcAux false r := by
  intro l
  induction l with
  | nil =>
    intro r b _
    show hcAux b ('\n' :: r) = [] ++ '\n' :: hcAux false r
    rw [hcAux_cons, if_neg (by rw [isHspace_nl]; simp), List.nil_append]
  | cons a l' ih =>
    intro r b hnl
    have hnl' : '\n' ∉ l' := fun h => hnl (by simp [h])
    show hcAux b (a :: (l' ++ '\n' :: r)) = hcAux b (a :: l') ++ '\n' :: hcAux false r
    rw [hcAux_cons, hcAux_cons]
    by_cases ha : isHspace a
    · rw [if_pos ha, if_pos ha]
      cases b with
      | true =>
        rw [if_pos rfl, if_pos rfl]
        exact ih r true hnl'
      | false =>
        rw [if_neg (by simp), if_neg (by simp)]
        rw [ih r true hnl']
        rfl
    · rw [if_neg ha, if_neg ha]
      rw [ih r false hnl']
      rfl

/-- Helper: the collapse over a line with a non-whitespace head emits that
head first. -/
theorem hcAux_cons_nonws {c : Char} (hc : pyIsSpace c = false) (l : List Char) :
    hcAux false (c :: l) = c :: hcAux false l := by
  rw [hcAux_cons, if_neg (by rw [not_hspace hc]; simp)]

/-- Helper: collapsing keeps some character when one is not horizontal
whitespace. -/
theorem hcAux_ne_nil : ∀ (b : Bool) (cs : List Char),
    (∃ c ∈ cs, isHspace c = false) → hcAux b cs ≠ [] := by
  intro b cs
  induction cs generalizing b with
  | nil => intro ⟨c, hc, _⟩; simp at hc
  | cons a l ih =>
    intro ⟨c, hc, hcH⟩
    rw [hcAux_cons]
    by_cases ha : isHspace a
    · rw [if_pos ha]
      have hcl : c ∈ l := by
        rcases List.mem_cons.mp hc with h | h
        · rw [h, ha] at hcH
          exact absurd hcH (by simp)
        · exact h
      cases b with
      | true =>
        rw [if_pos rfl]
        exact ih true ⟨c, hcl, hcH⟩
      | false =>
        rw [if_neg (by simp)]
        simp
    · rw [if_neg ha]
      simp

/-- Helper: collapsing preserves a non-whitespace last character. -/
theorem hcAux_last : ∀ (cs : List Char) (b : Bool),
    (∀ c, cs.getLast? = some c → pyIsSpace c = false) →
    ∀ c, (hcAux b cs).getLast? = some c → pyIsSpace c = false := by
  intro cs
  induction cs with
  | nil => intro b _ c hc; simp [hcAux] at hc
  | cons a l ih =>
    intro b hlast c hc
    cases l with
    | nil =>
      have ha : pyIsSpace a = false := hlast a rfl
      rw [hcAux_cons, if_neg (by rw [not_hspace ha]; simp)] at hc
      simp [hcAux] at hc
      rw [← hc]
      exact ha
    | cons a2 l2 =>
      have htail : ∀ x, (a2 :: l2).getLast? = some x → pyIsSpace x = false := fun x hx =>
        hlast x (by rw [List.getLast?_cons_cons]; exact hx)
      have hne : ∃ x ∈ a2 :: l2, isHspace x = false := by
        refine ⟨(a2 :: l2).getLast (by simp), List.getLast_mem _, not_hspace
          (htail _ (List.getLast?_eq_getLast _ (by simp)))⟩
      rw [hcAux_cons] at hc
      by_cases ha : isHspace a
      · rw [if_pos ha] at hc
        cases b with
        | true =>
          rw [if_pos rfl] at hc
          exact ih true htail c hc
        | false =>
          rw [if_neg (by simp)] at hc
          cases hcc : hcAux true (a2 :: l2) with
          | nil => exact absurd hcc (hcAux_ne_nil true _ hne)
          | cons z zs =>
            rw [hcc, List.getLast?_cons_cons] at hc
            exact ih true htail c (by rw [hcc]; exact hc)
      · rw [if_neg ha] at hc
        cases hcc : hcAux false (a2 :: l2) with
        | nil => exact absurd hcc (hcAux_ne_nil false _ hne)
        | cons z zs =>
          rw [hcc, List.getLast?_cons_cons] at hc
          exact ih false htail c (by rw [hcc]; exact hc)

/-- Helper: a joined line list starts with its first line. -/
theorem inter_cons_exists (x : List Char) (L : List (List Char)) :
    ∃ T, intercalateNl (x :: L) = x ++ T := by
  cases L with
  | nil => exact ⟨[], (List.append_nil x).symm⟩
  | cons y L' => exact ⟨'\n' :: intercalateNl (y :: L'), inter_cons_cons x y L'⟩

/-- Helper: joining an invariant-respecting line list creates no whitespace
run with three newlines. -/
theorem inter_noTripleNl : ∀ L, LinesOK L → noTripleNl (intercalateNl L) := by
  intro L
  induction L with
  | nil =>
    intro _ u v huv
    simp [intercalateNl] at huv
  | cons l L' ih =>
    intro hok u v huv
    have hlok := hok.1 l (by simp)
    have hnl : '\n' ∉ l := LineOK_nl_free hlok
    cases L' with
    | nil =>
      have hl : intercalateNl [l] = l := rfl
      rw [hl] at huv
      exact absurd (show ('\n' : Char) ∈ l by rw [huv]; simp) hnl
    | cons l2 L'' =>
      rw [inter_cons_cons] at huv
      rcases append_char_cases l u v (intercalateNl (l2 :: L'')) huv hnl with
        ⟨hu, hv⟩ | ⟨w, hu, hJ2⟩
      · subst hv
        have hl2ok := hok.1 l2 (by simp)
        rcases hl2ok with hl2e | ⟨hhd2, _, hne2, _⟩
        · subst hl2e
          cases L'' with
          | nil =>
            show (('\n' :: (intercalateNl [([] : List Char)]).takeWhile pyIsSpace).countP
              (fun x => x == '\n')) < 3
            simp [intercalateNl, List.countP_cons]
          | cons l3 L''' =>
            have hl3ne : l3 ≠ [] := by
              have hch := hok.2.tail
              have := (List.chain'_cons'.mp hch).1 l3 (by
                cases L''' <;> simp [inter_cons_cons])
              rcases this with h | h
              · exact absurd rfl h
              · exact h
            have hl3ok := hok.1 l3 (by simp)
            rcases hl3ok with h | ⟨hhd3, _, _, _⟩
            · exact absurd h hl3ne
            · cases l3 with
              | nil => exact absurd rfl hl3ne
              | cons c3 l3' =>
                have hc3 : pyIsSpace c3 = false := hhd3 c3 rfl
                obtain ⟨T, hT⟩ := inter_cons_exists (c3 :: l3') L'''
                have hJ : intercalateNl (([] : List Char) :: (c3 :: l3') :: L''') =
                    '\n' :: ((c3 :: l3') ++ T) := by
                  rw [inter_cons_cons, ← hT]
                  rfl
                rw [hJ]
                show (('\n' :: (('\n' :: (c3 :: (l3' ++ T))).takeWhile pyIsSpace)).countP
                  (fun x => x == '\n')) < 3
                rw [List.takeWhile_cons, if_pos (by decide), List.takeWhile_cons,
                  if_neg (by simp [hc3])]
                simp [List.countP_cons]
        · cases l2 with
          | nil => exact absurd rfl hne2
          | cons c2 l2' =>
            have hc2 : pyIsSpace c2 = false := hhd2 c2 rfl
            obtain ⟨T, hT⟩ := inter_cons_exists (c2 :: l2') L''
            rw [hT]
            show (('\n' :: ((c2 :: (l2' ++ T)).takeWhile pyIsSpace)).countP
              (fun x => x == '\n')) < 3
            rw [List.takeWhile_cons, if_neg (by simp [hc2])]
            simp [List.countP_cons]
      · exact ih ⟨fun x hx => hok.1 x (by simp [hx]), hok.2.tail⟩ w v hJ2

/-- Helper: the collapse maps the joined lines to the joined collapsed
lines. -/
theorem hc_inter : ∀ L : List (List Char), (∀ l ∈ L, '\n' ∉ l) →
    hcAux false (intercalateNl L) = intercalateNl (L.map (hcAux false)) := by
  intro L
  induction L with
  | nil => intro _; rfl
  | cons x L' ih =>
    intro h
    cases L' with
    | nil => rfl
    | cons y L'' =>
      rw [inter_cons_cons, hcAux_append_line x (intercalateNl (y :: L'')) false
        (h x (by simp)), ih (fun l hl => h l (by simp [hl]))]
      rfl

/-- Helper: a kept line collapses to a non-empty line. -/
theorem hc_ne_of_ok {l : List Char} (h : LineOK l) (hne : l ≠ []) :
    hcAux false l ≠ [] := by
  rcases h with h | ⟨hhd, _, _, _⟩
  · exact absurd h hne
  · cases l with
    | nil => exact absurd rfl hne
    | cons c rest =>
      rw [hcAux_cons_nonws (hhd c rfl)]
      simp

/-- Helper: the no-adjacent-empty-lines chain survives the collapse. -/
theorem chain_map_hc : ∀ L : List (List Char), (∀ l ∈ L, LineOK l) →
    List.Chain' (fun a b => a ≠ [] ∨ b ≠ []) L →
    List.Chain' (fun a b => a ≠ [] ∨ b ≠ []) (L.map (hcAux false)) := by
  intro L
  induction L with
  | nil => intro _ _; simp
  | cons x L' ih =>
    intro hm hch
    rw [List.map_cons, List.chain'_cons']
    constructor
    · intro y hy
      cases L' with
      | nil => simp at hy
      | cons z L'' =>
        rw [List.map_cons, List.head?_cons, Option.mem_def] at hy
        have hyz : y = hcAux false z := by
          exact (Option.some.inj hy).symm
        subst hyz
        have hxz : x ≠ [] ∨ z ≠ [] := (List.chain'_cons'.mp hch).1 z (by simp)
        rcases hxz with h | h
        · exact Or.inl (hc_ne_of_ok (hm x (by simp)) h)
        · exact Or.inr (hc_ne_of_ok (hm z (by simp)) h)
    · exact ih (fun l hl => hm l (by simp [hl])) (List.chain'_cons'.mp hch).2

/-- Helper: the full line invariant survives the collapse. -/
theorem LinesOK_map_hc (L : List (List Char)) (hok : LinesOK L) :
    LinesOK (L.map (hcAux false)) := by
  constructor
  · intro l' hl'
    rcases List.mem_map.mp hl' with ⟨l, hl, rfl⟩
    rcases hok.1 l hl with h | ⟨hhd, hlast, hne, hnl⟩
    · subst h
      exact Or.inl rfl
    · refine Or.inr ⟨?_, hcAux_last l false hlast, hc_ne_of_ok (hok.1 l hl) hne, ?_⟩
      · cases l with
        | nil => exact absurd rfl hne
        | cons c rest =>
          have hc : pyIsSpace c = false := hhd c rfl
          rw [hcAux_cons_nonws hc]
          intro c' hc'
          simp at hc'
          rw [← hc']
          exact hc
      · intro hmem
        rcases hcAux_mem false l '\n' hmem with h | h
        · exact absurd h (by decide)
        · exact hnl h
  · exact chain_map_hc L hok.1 hok.2

/-- Helper: a chain relation holds at every adjacent pair of a list. -/
theorem chain'_pair {α : Type} {R : α → α → Prop} :
    ∀ {u : List α} {l v : List α} {a b : α},
      List.Chain' R l → l = u ++ a :: b :: v → R a b := by
  intro u
  induction u with
  | nil =>
    intro l v a b hch hl
    subst hl
    exact (List.chain'_cons'.mp hch).1 b (by simp)
  | cons x u' ih =>
    intro l v a b hch hl
    subst hl
    exact ih hch.tail rfl

/-! ## C8: the whitespace invariant of the Normalizer output. -/

/-- Helper: every property of the final whitespace section, for an
arbitrary intermediate text: the output has no three consecutive blank
lines, no run of two horizontal whitespace characters, and no leading or
trailing whitespace. -/
theorem finalWhitespace_props (t : List Char) :
    (∀ u v l1 l2 l3, splitNl (finalWhitespace t) = u ++ l1 :: l2 :: l3 :: v →
      ¬(blankLine l1 ∧ blankLine l2 ∧ blankLine l3)) ∧
    (∀ u v a b, finalWhitespace t = u ++ a :: b :: v →
      ¬(isHspace a = true ∧ isHspace b = true)) ∧
    (∀ c, (finalWhitespace t).head? = some c → pyIsSpace c = false) ∧
    (∀ c, (finalWhitespace t).getLast? = some c → pyIsSpace c = false) := by
  have hok : LinesOK (filterLines (splitNl t)) := filterLines_ok t
  have hjn : noTripleNl (intercalateNl (filterLines (splitNl t))) :=
    inter_noTripleNl _ hok
  have hbc : blankCollapse (intercalateNl (filterLines (splitNl t))) =
      intercalateNl (filterLines (splitNl t)) :=
    bcAux_id _ _ le_rfl hjn
  have hfw : finalWhitespace t =
      pyStrip (hcAux false (intercalateNl (filterLines (splitNl t)))) := by
    show pyStrip (hcAux false (blankCollapse (intercalateNl (filterLines (splitNl t)))))
      = _
    rw [hbc]
  have hnlH : ∀ l ∈ filterLines (splitNl t), '\n' ∉ l :=
    fun l hl => LineOK_nl_free (hok.1 l hl)
  have hinter : hcAux false (intercalateNl (filterLines (splitNl t))) =
      intercalateNl ((filterLines (splitNl t)).map (hcAux false)) :=
    hc_inter _ hnlH
  have hok2 : LinesOK ((filterLines (splitNl t)).map (hcAux false)) :=
    LinesOK_map_hc _ hok
  have hn2 : noTripleNl (hcAux false (intercalateNl (filterLines (splitNl t)))) := by
    rw [hinter]
    exact inter_noTripleNl _ hok2
  have hch : List.Chain' (fun x y => ¬(isHspace x = true ∧ isHspace y = true))
      (hcAux false (intercalateNl (filterLines (splitNl t)))) := hcAux_chain false _
  have hinf := pyStrip_isInfix (hcAux false (intercalateNl (filterLines (splitNl t))))
  have hoedge1 := pyStrip_head (hcAux false (intercalateNl (filterLines (splitNl t))))
  have hoedge2 := pyStrip_last (hcAux false (intercalateNl (filterLines (splitNl t))))
  have hnout : noTripleNl (finalWhitespace t) := by
    rw [hfw]
    exact noTripleNl_infix hinf hn2
  have hchout : List.Chain' (fun x y => ¬(isHspace x = true ∧ isHspace y = true))
      (finalWhitespace t) := by
    rw [hfw]
    rcases hinf with ⟨pre, post, heq⟩
    rw [← heq] at hch
    rw [List.append_assoc] at hch
    exact ((List.chain'_append.mp ((List.chain'_append.mp hch).2.1)).1)
  refine ⟨?_, ?_, ?_, ?_⟩
  · intro u v l1 l2 l3 hsplit hblank
    have hov : finalWhitespace t = intercalateNl (splitNl (finalWhitespace t)) :=
      (inter_splitNl _).symm
    cases u with
    | nil =>
      have ho2 : finalWhitespace t = intercalateNl (l1 :: l2 :: l3 :: v) := by
        rw [hov, hsplit]
        rfl
      cases l1 with
      | nil =>
        have hh0 : (finalWhitespace t).head? = some '\n' := by
          rw [ho2, inter_cons_cons]
          rfl
        have := hoedge1 '\n' (by rw [← hfw]; exact hh0)
        exact absurd this (by simp [pyIsSpace])
      | cons c1 l1' =>
        have hh0 : (finalWhitespace t).head? = some c1 := by
          rw [ho2, inter_cons_cons]
          rfl
        have h1 := hoedge1 c1 (by rw [← hfw]; exact hh0)
        have h2 := hblank.1 c1 (by simp)
        rw [h1] at h2
        exact absurd h2 (by simp)
    | cons u1 u' =>
      cases v with
      | nil =>
        have ho2 : finalWhitespace t = intercalateNl ((u1 :: u') ++ [l1, l2, l3]) := by
          rw [hov, hsplit]
        rw [inter_append_left (u1 :: u') [l1, l2, l3] (by simp) (by simp)] at ho2
        have hshape : intercalateNl [l1, l2, l3] = l1 ++ '\n' :: (l2 ++ '\n' :: l3) := by
          rw [inter_cons_cons, inter_cons_cons]
          rfl
        rw [hshape] at ho2
        have ho3 : finalWhitespace t =
            ((intercalateNl (u1 :: u') ++ '\n' :: l1) ++ '\n' :: l2) ++ '\n' :: l3 := by
          rw [ho2]
          simp
        obtain ⟨c3, hc3⟩ : ∃ c, (('\n' :: l3) : List Char).getLast? = some c :=
          ⟨_, List.getLast?_eq_getLast _ (by simp)⟩
        have hc3mem : c3 ∈ '\n' :: l3 := by
          rw [List.getLast?_eq_getLast ('\n' :: l3) (by simp)] at hc3
          have := List.getLast_mem (l := '\n' :: l3) (by simp)
          rwa [Option.some.inj hc3] at this
        have hlast3 : (finalWhitespace t).getLast? = some c3 := by
          rw [ho3, List.getLast?_append_cons]
          exact hc3
        have hws : pyIsSpace c3 = true := by
          rcases List.mem_cons.mp hc3mem with h | h
          · rw [h]
            decide
          · exact hblank.2.2 c3 h
        have := hoedge2 c3 (by rw [← hfw]; exact hlast3)
        rw [this] at hws
        exact absurd hws (by simp)
      | cons v1 v' =>
        have ho2 : finalWhitespace t =
            intercalateNl ((u1 :: u') ++ l1 :: l2 :: l3 :: v1 :: v') := by
          rw [hov, hsplit]
        rw [inter_append_left (u1 :: u') _ (by simp) (by simp)] at ho2
        have hex : intercalateNl (l1 :: l2 :: l3 :: v1 :: v') =
            l1 ++ '\n' :: (l2 ++ '\n' :: (l3 ++ '\n' :: intercalateNl (v1 :: v'))) := by
          rw [inter_cons_cons, inter_cons_cons, inter_cons_cons]
        rw [hex] at ho2
        have hdec : finalWhitespace t =
            (intercalateNl (u1 :: u') ++ '\n' :: l1) ++
              '\n' :: (l2 ++ '\n' :: (l3 ++ '\n' :: intercalateNl (v1 :: v'))) := by
          rw [ho2]
          simp
        have hcnt := hnout _ _ hdec
        have ht1 : (l2 ++ '\n' :: (l3 ++ '\n' :: intercalateNl (v1 :: v'))).takeWhile
            pyIsSpace =
            l2 ++ '\n' :: (l3 ++ ('\n' :: intercalateNl (v1 :: v')).takeWhile pyIsSpace) := by
          rw [takeWhile_all_append pyIsSpace l2 _ (fun c hc => hblank.2.1 c hc),
            List.takeWhile_cons, if_pos (by decide),
            takeWhile_all_append pyIsSpace l3 _ (fun c hc => hblank.2.2 c hc)]
        rw [ht1] at hcnt
        have hc1 : 1 ≤ (('\n' :: intercalateNl (v1 :: v')).takeWhile
            pyIsSpace).countP (fun x => x == '\n') := by
          rw [List.takeWhile_cons, if_pos (by decide)]
          simp [List.countP_cons]
        simp only [List.countP_cons, List.countP_append] at hcnt
        simp at hcnt
        omega
  · intro u v a b hdec hab
    exact chain'_pair hchout hdec hab
  · exact fun c hc => by rw [hfw] at hc; exact hoedge1 c hc
  · exact fun c hc => by rw [hfw] at hc; exact hoedge2 c hc

/-- Claim C8: for every input, the Normalizer's output has no three or more
consecutive blank lines, no run of two or more horizontal whitespace
characters, and no leading or trailing whitespace. -/
theorem c8_whitespace_invariant (s : String) :
    noThreeBlankLines (clean_with_regex s) ∧ noDoubleHspace (clean_with_regex s) ∧
    noEdgeWhitespace (clean_with_regex s) := by
  have hprops := finalWhitespace_props (preWhitespace s)
  have h1 : clean_with_regex s = ⟨finalWhitespace (preWhitespace s)⟩ := rfl
  have hdata : (clean_with_regex s).data = finalWhitespace (preWhitespace s) := by
    rw [h1]
  refine ⟨?_, ?_, ?_, ?_⟩
  · intro u v l1 l2 l3 hsplit
    exact hprops.1 u v l1 l2 l3 (by rw [← hdata]; exact hsplit)
  · intro u v a b hdec
    exact hprops.2.1 u v a b (by rw [← hdata]; exact hdec)
  · intro c hc
    exact hprops.2.2.1 c (by rw [← hdata]; exact hc)
  · intro c hc
    exact hprops.2.2.2 c (by rw [← hdata]; exact hc)

/-- Witness for c8_whitespace_invariant at a concrete input with a tab run
and surrounding whitespace. -/
theorem c8_witness :
    noThreeBlankLines (clean_with_regex " a \t b \n\n\n\n c ") ∧
    noDoubleHspace (clean_with_regex " a \t b \n\n\n\n c ") ∧
    noEdgeWhitespace (clean_with_regex " a \t b \n\n\n\n c ") :=
  c8_whitespace_invariant " a \t b \n\n\n\n c "

end OsrsRag
